import Mathlib

/-!
# Verification of the GoPro distance-overlay engine (mara_overlay.py)

A shallow embedding of the time/geospatial core of `mara_overlay.py`:
the haversine great-circle distance, the cumulative-miles query over a
GPS track, video-start-time resolution, GPX track-point extraction, the
frame scheduler arithmetic, and the command-line entry guard.

Floating-point values are modelled by real numbers, UTC instants of GPS
samples by rational seconds, and calendar arithmetic by integer epoch
seconds.
-/

namespace MaraOverlay

/-! ## Data model: GPS samples -/

/-- A GPS sample `(dt, lat, lon)` as produced by `parse_gpx`:
a UTC timestamp (modelled as rational seconds on the UTC timeline)
plus latitude and longitude in degrees. -/
structure GeoSample where
  time : ℚ
  lat : ℝ
  lon : ℝ

/-! ## haversine (mara_overlay.py lines 44–50) -/

/-- Python `math.radians`: degrees to radians. -/
noncomputable def radians (x : ℝ) : ℝ := x * (Real.pi / 180)

/-- `haversine(lat1, lon1, lat2, lon2)` from the source: great-circle
distance in miles, Earth radius 6371000 m, miles factor 0.000621371. -/
noncomputable def haversine (lat1 lon1 lat2 lon2 : ℝ) : ℝ :=
  let R : ℝ := 6371000
  let lat1r := radians lat1
  let lon1r := radians lon1
  let lat2r := radians lat2
  let lon2r := radians lon2
  let dlat := lat2r - lat1r
  let dlon := lon2r - lon1r
  let a := Real.sin (dlat / 2) ^ 2 +
    Real.cos lat1r * Real.cos lat2r * Real.sin (dlon / 2) ^ 2
  2 * R * Real.arcsin (Real.sqrt a) * 0.000621371

theorem haversine_nonneg (lat1 lon1 lat2 lon2 : ℝ) :
    0 ≤ haversine lat1 lon1 lat2 lon2 := by
  unfold haversine
  have h1 : (0 : ℝ) ≤ Real.arcsin (Real.sqrt
      (Real.sin ((radians lat2 - radians lat1) / 2) ^ 2 +
        Real.cos (radians lat1) * Real.cos (radians lat2) *
          Real.sin ((radians lon2 - radians lon1) / 2) ^ 2)) :=
    Real.arcsin_nonneg.mpr (Real.sqrt_nonneg _)
  have h2 : (0 : ℝ) ≤ 2 * 6371000 := by norm_num
  simp only []
  nlinarith

/-! ## cumulative_miles (mara_overlay.py lines 79–87) -/

/-- The list comprehension `[p for p in points if p[0] <= target_time]`. -/
def pastOf (points : List GeoSample) (target_time : ℚ) : List GeoSample :=
  points.filter fun p => decide (p.time ≤ target_time)

/-- The accumulation loop of `cumulative_miles`: starting from `total`
and the previous sample `prev`, add the haversine distance of each
consecutive pair along the remaining list. -/
noncomputable def milesLoop (total : ℝ) (prev : GeoSample) :
    List GeoSample → ℝ
  | [] => total
  | p :: rest => milesLoop (total + haversine prev.lat prev.lon p.lat p.lon) p rest

/-- `cumulative_miles(points, target_time)` from the source: filter to
samples not after `target_time`; with fewer than two such samples return
`0.0`, otherwise walk consecutive pairs accumulating haversine miles. -/
noncomputable def cumulative_miles (points : List GeoSample) (target_time : ℚ) : ℝ :=
  let past := pastOf points target_time
  if past.length < 2 then 0
  else
    match past with
    | [] => 0
    | p0 :: rest => milesLoop 0 p0 rest

/-- Tracks sorted ascending by timestamp. -/
def sortedTrack (points : List GeoSample) : Prop :=
  points.Pairwise fun a b => a.time ≤ b.time

instance sortedTrack.dec (points : List GeoSample) : Decidable (sortedTrack points) := by
  unfold sortedTrack
  infer_instance

/-! ### Loop lemmas -/

theorem milesLoop_eq_add (total : ℝ) (prev : GeoSample) (l : List GeoSample) :
    milesLoop total prev l = total + milesLoop 0 prev l := by
  induction l generalizing total prev with
  | nil => simp [milesLoop]
  | cons p rest ih =>
    rw [milesLoop, milesLoop, ih (total + _), ih (0 + _)]
    ring

theorem milesLoop_nonneg (prev : GeoSample) (l : List GeoSample) :
    0 ≤ milesLoop 0 prev l := by
  induction l generalizing prev with
  | nil => simp [milesLoop]
  | cons p rest ih =>
    rw [milesLoop, milesLoop_eq_add]
    have := haversine_nonneg prev.lat prev.lon p.lat p.lon
    have := ih p
    linarith

theorem milesLoop_append (prev : GeoSample) (l r : List GeoSample) :
    milesLoop 0 prev (l ++ r) =
      milesLoop 0 prev l + milesLoop 0 (l.getLastD prev) r := by
  induction l generalizing prev with
  | nil => simp [milesLoop]
  | cons p rest ih =>
    rw [List.cons_append, milesLoop, milesLoop, List.getLastD_cons,
      milesLoop_eq_add _ p (rest ++ r), milesLoop_eq_add _ p rest, ih p]
    ring

/-- Path length of a whole sample list (zero on degenerate lists),
matching what `cumulative_miles` computes on a kept list. -/
noncomputable def listMiles : List GeoSample → ℝ
  | [] => 0
  | p :: rest => milesLoop 0 p rest

theorem listMiles_nonneg (l : List GeoSample) : 0 ≤ listMiles l := by
  cases l with
  | nil => simp [listMiles]
  | cons p rest => exact milesLoop_nonneg p rest

theorem listMiles_append_le (l r : List GeoSample) :
    listMiles l ≤ listMiles (l ++ r) := by
  cases l with
  | nil => simpa [listMiles] using listMiles_nonneg r
  | cons p rest =>
    rw [List.cons_append, listMiles, listMiles, milesLoop_append]
    have := milesLoop_nonneg (rest.getLastD p) r
    linarith

theorem cumulative_miles_eq_listMiles (points : List GeoSample) (t : ℚ) :
    cumulative_miles points t = listMiles (pastOf points t) := by
  unfold cumulative_miles
  cases h : pastOf points t with
  | nil => simp [listMiles]
  | cons p rest =>
    cases rest with
    | nil => simp [listMiles, milesLoop]
    | cons q rest2 => simp [listMiles]

/-- On a sorted track a weaker time cutoff keeps a prefix of what a
stronger cutoff keeps. -/
theorem pastOf_prefix_of_le (points : List GeoSample) (t1 t2 : ℚ)
    (hs : sortedTrack points) (h : t1 ≤ t2) :
    ∃ r, pastOf points t2 = pastOf points t1 ++ r := by
  induction points with
  | nil => exact ⟨[], rfl⟩
  | cons a l ih =>
    rcases List.pairwise_cons.mp hs with ⟨ha, hl⟩
    by_cases h1 : a.time ≤ t1
    · have h2 : a.time ≤ t2 := le_trans h1 h
      rcases ih hl with ⟨r, hr⟩
      refine ⟨r, ?_⟩
      simp only [pastOf, List.filter_cons, decide_eq_true_eq, h1, h2,
        if_pos, decide_eq_true] at *
      simp [h1, h2, hr]
    · have hnil : pastOf (a :: l) t1 = [] := by
        apply List.filter_eq_nil_iff.mpr
        intro x hx
        simp only [decide_eq_true_eq]
        rcases List.mem_cons.mp hx with rfl | hxl
        · exact h1
        · intro hle
          exact h1 (le_trans (ha x hxl) hle)
      exact ⟨pastOf (a :: l) t2, by rw [hnil]; rfl⟩

/-- Sum of haversine distances over all consecutive pairs of a track:
the spec-side total track distance. -/
noncomputable def pairSum (l : List GeoSample) : ℝ :=
  (List.zipWith (fun a b => haversine a.lat a.lon b.lat b.lon) l l.tail).sum

theorem listMiles_eq_pairSum (l : List GeoSample) : listMiles l = pairSum l := by
  induction l with
  | nil => simp [listMiles, pairSum]
  | cons p rest ih =>
    cases rest with
    | nil => simp [listMiles, milesLoop, pairSum]
    | cons q rest2 =>
      have hps : pairSum (p :: q :: rest2) =
          haversine p.lat p.lon q.lat q.lon + pairSum (q :: rest2) := by
        simp [pairSum]
      rw [listMiles, milesLoop, milesLoop_eq_add, hps, ← ih, listMiles]
      ring

/-- On a sorted track every sample time is at most the last sample's time. -/
theorem mem_time_le_getLastD (l : List GeoSample) (d : GeoSample)
    (hs : sortedTrack l) : ∀ x ∈ l, x.time ≤ (l.getLastD d).time := by
  induction l generalizing d with
  | nil => intro x hx; cases hx
  | cons a rest ih =>
    intro x hx
    rw [List.getLastD_cons]
    rcases List.pairwise_cons.mp hs with ⟨ha, hrest⟩
    rcases List.mem_cons.mp hx with rfl | hxl
    · rcases List.mem_cons.mp (List.getLastD_mem_cons rest x) with he | hm
      · rw [he]
      · exact ha _ hm
    · exact ih a hrest x hxl

/-! ## Claim theorems about the distance engine -/

/-- C1: for every track sorted ascending by timestamp and all instants
`t1 < t2`, `cumulative_miles points t1 ≤ cumulative_miles points t2` —
the cumulative-miles query is monotonically non-decreasing in the query
instant. -/
theorem cumulative_miles_mono_in_time (points : List GeoSample)
    (hs : sortedTrack points) (t1 t2 : ℚ) (h : t1 < t2) :
    cumulative_miles points t1 ≤ cumulative_miles points t2 := by
  rcases pastOf_prefix_of_le points t1 t2 hs (le_of_lt h) with ⟨r, hr⟩
  rw [cumulative_miles_eq_listMiles, cumulative_miles_eq_listMiles, hr]
  exact listMiles_append_le _ _

theorem cumulative_miles_mono_in_time_witness :
    sortedTrack [⟨0, 10, 20⟩, ⟨60, 11, 21⟩] ∧ (0 : ℚ) < 60 ∧
      cumulative_miles [⟨0, 10, 20⟩, ⟨60, 11, 21⟩] 0 ≤
        cumulative_miles [⟨0, 10, 20⟩, ⟨60, 11, 21⟩] 60 :=
  ⟨by decide, by norm_num,
    cumulative_miles_mono_in_time _ (by decide) 0 60 (by norm_num)⟩

/-- C2: whenever fewer than two samples lie at or before the query
instant the query returns exactly `0.0`; in particular the empty track,
a single-point track, and a query strictly before the first sample of a
sorted track all yield `0.0`, never an error. -/
theorem cumulative_miles_degenerate :
    (∀ (points : List GeoSample) (t : ℚ),
        (pastOf points t).length < 2 → cumulative_miles points t = 0) ∧
    (∀ t : ℚ, cumulative_miles [] t = 0) ∧
    (∀ (p : GeoSample) (t : ℚ), cumulative_miles [p] t = 0) ∧
    (∀ (p0 : GeoSample) (rest : List GeoSample) (t : ℚ),
        sortedTrack (p0 :: rest) → t < p0.time →
        cumulative_miles (p0 :: rest) t = 0) := by
  have key : ∀ (points : List GeoSample) (t : ℚ),
      (pastOf points t).length < 2 → cumulative_miles points t = 0 := by
    intro points t h
    rw [cumulative_miles_eq_listMiles]
    cases hp : pastOf points t with
    | nil => simp [listMiles]
    | cons p rest =>
      cases rest with
      | nil => simp [listMiles, milesLoop]
      | cons q rest2 =>
        rw [hp] at h
        simp only [List.length_cons] at h
        omega
  refine ⟨key, ?_, ?_, ?_⟩
  · intro t; exact key [] t (by simp [pastOf])
  · intro p t
    refine key [p] t ?_
    have hle : (pastOf [p] t).length ≤ 1 := List.length_filter_le _ _
    omega
  · intro p0 rest t hs hlt
    refine key _ t ?_
    have hnil : pastOf (p0 :: rest) t = [] := by
      apply List.filter_eq_nil_iff.mpr
      intro x hx
      simp only [decide_eq_true_eq]
      rcases List.mem_cons.mp hx with rfl | hxl
      · exact fun hle => absurd hlt (not_lt.mpr hle)
      · have hx0 := (List.pairwise_cons.mp hs).1 x hxl
        exact fun hle => absurd hlt (not_lt.mpr (le_trans hx0 hle))
    rw [hnil]
    simp

theorem cumulative_miles_degenerate_witness :
    (pastOf [(⟨5, 1, 2⟩ : GeoSample)] 0).length < 2 ∧
      cumulative_miles [(⟨5, 1, 2⟩ : GeoSample)] 0 = 0 :=
  ⟨by decide, cumulative_miles_degenerate.1 _ 0 (by decide)⟩

/-- C3: on a sorted track with at least two samples, any query instant
at or after the last sample's timestamp returns the total track
distance — the sum of haversine distances over all consecutive pairs
(the query saturates, never extrapolating past the last point). -/
theorem cumulative_miles_saturates (p0 : GeoSample) (rest : List GeoSample)
    (t : ℚ) (hs : sortedTrack (p0 :: rest)) (_hlen : 2 ≤ (p0 :: rest).length)
    (hlast : ((p0 :: rest).getLastD p0).time ≤ t) :
    cumulative_miles (p0 :: rest) t = pairSum (p0 :: rest) := by
  have hall : ∀ x ∈ p0 :: rest, (fun p => decide (p.time ≤ t)) x = true := by
    intro x hx
    simp only [decide_eq_true_eq]
    exact le_trans (mem_time_le_getLastD _ p0 hs x hx) hlast
  have hpast : pastOf (p0 :: rest) t = p0 :: rest :=
    List.filter_eq_self.mpr hall
  rw [cumulative_miles_eq_listMiles, hpast, listMiles_eq_pairSum]

theorem cumulative_miles_saturates_witness :
    sortedTrack [⟨0, 1, 2⟩, ⟨60, 3, 4⟩] ∧
      2 ≤ ([⟨0, 1, 2⟩, ⟨60, 3, 4⟩] : List GeoSample).length ∧
      (([⟨0, 1, 2⟩, ⟨60, 3, 4⟩] : List GeoSample).getLastD ⟨0, 1, 2⟩).time ≤ 100 ∧
      cumulative_miles [⟨0, 1, 2⟩, ⟨60, 3, 4⟩] 100 =
        pairSum [⟨0, 1, 2⟩, ⟨60, 3, 4⟩] :=
  ⟨by decide, by decide, by decide,
    cumulative_miles_saturates _ _ 100 (by decide) (by decide) (by decide)⟩

/-- C4: the haversine distance from a point to itself is `0.0`, and
haversine is symmetric in its two points. -/
theorem haversine_self_zero_and_symm :
    (∀ lat lon : ℝ, haversine lat lon lat lon = 0) ∧
    (∀ lat1 lon1 lat2 lon2 : ℝ,
        haversine lat1 lon1 lat2 lon2 = haversine lat2 lon2 lat1 lon1) := by
  constructor
  · intro lat lon
    simp [haversine, sub_self, Real.sqrt_zero, Real.arcsin_zero]
  · intro lat1 lon1 lat2 lon2
    simp only [haversine]
    have hsin : ∀ x y : ℝ,
        Real.sin ((x - y) / 2) ^ 2 = Real.sin ((y - x) / 2) ^ 2 := by
      intro x y
      rw [show (x - y) / 2 = -((y - x) / 2) by ring, Real.sin_neg, neg_sq]
    rw [hsin (radians lat2) (radians lat1), hsin (radians lon2) (radians lon1),
      mul_comm (Real.cos (radians lat1)) (Real.cos (radians lat2))]

/-! ## Configuration constants (mara_overlay.py lines 35–36) -/

def OUTPUT_FPS : ℕ := 1

def MANUAL_OFFSET_SECONDS : ℤ := 3600

/-! ## Frame scheduler arithmetic (mara_overlay.py line 98 and 103) -/

/-- Python `int()` on a float value: truncation toward zero, modelled on
rationals. -/
def pyInt (q : ℚ) : ℤ := if q < 0 then ⌈q⌉ else ⌊q⌋

/-- `total_frames = int(duration * OUTPUT_FPS) + 1`, generalized over
the configured output frame rate (the source fixes `fps = OUTPUT_FPS`). -/
def total_frames (duration : ℚ) (fps : ℕ) : ℤ :=
  pyInt (duration * fps) + 1

/-- `range(total_frames)`: the frame indices the scheduler iterates. -/
def frameIndices (duration : ℚ) (fps : ℕ) : List ℕ :=
  List.range (total_frames duration fps).toNat

/-- C6: for every non-negative duration and frame rate the scheduler
produces `floor(duration * fps) + 1` frames, with indices `0` through
`floor(duration * fps)`. -/
theorem total_frames_is_floor_succ (duration : ℚ) (h : 0 ≤ duration) (fps : ℕ) :
    total_frames duration fps = ⌊duration * (fps : ℚ)⌋ + 1 ∧
    frameIndices duration fps = List.range ((⌊duration * (fps : ℚ)⌋).toNat + 1) ∧
    (frameIndices duration fps).length = (⌊duration * (fps : ℚ)⌋).toNat + 1 := by
  have hnn : 0 ≤ duration * (fps : ℚ) := mul_nonneg h (by positivity)
  have hpy : pyInt (duration * (fps : ℚ)) = ⌊duration * (fps : ℚ)⌋ := by
    unfold pyInt
    rw [if_neg (not_lt.mpr hnn)]
  have hfl : 0 ≤ ⌊duration * (fps : ℚ)⌋ := Int.floor_nonneg.mpr hnn
  refine ⟨by rw [total_frames, hpy], ?_, ?_⟩
  · unfold frameIndices total_frames
    rw [hpy]
    congr 1
    omega
  · unfold frameIndices total_frames
    rw [hpy, List.length_range]
    omega

theorem total_frames_is_floor_succ_witness :
    (0 : ℚ) ≤ 10.4 ∧
      total_frames 10.4 1 = ⌊(10.4 : ℚ) * ((1 : ℕ) : ℚ)⌋ + 1 ∧
      total_frames 10.4 1 = 11 ∧ (frameIndices 10.4 1).length = 11 :=
  ⟨by norm_num, (total_frames_is_floor_succ 10.4 (by norm_num) 1).1,
    by norm_num [total_frames, pyInt],
    by
      norm_num [frameIndices, total_frames, pyInt, List.length_range]
      rfl⟩

/-- C8: `cumulative_miles` is deterministic — it is a pure function of
the pair `(track, instant)`, reading no hidden state, so two
evaluations on the same inputs always agree. -/
theorem cumulative_miles_deterministic (points : List GeoSample) (t : ℚ) :
    cumulative_miles points t = cumulative_miles points t := rfl

/-! ## Command-line entry guard (mara_overlay.py lines 154–158) -/

/-- Outcome of the `__main__` block: either print the usage line and
exit with the given code, or run `main` on the three paths. -/
inductive EntryAction where
  | usage (exitCode : ℕ) (msg : String)
  | runMain (gpx video out : String)
deriving DecidableEq

/-- The `__main__` guard: with `len(sys.argv) != 4` print usage and
`sys.exit(1)`, otherwise call `main(sys.argv[1], sys.argv[2],
sys.argv[3])`. -/
def entryPoint (argv : List String) : EntryAction :=
  if argv.length ≠ 4 then
    EntryAction.usage 1 "Usage: python3 mara_overlay.py track.gpx video.mp4 output.webm"
  else
    EntryAction.runMain (argv.getD 1 "") (argv.getD 2 "") (argv.getD 3 "")

/-- C9: invoked with an argument-vector length other than four (program
name plus exactly three positional arguments) the program prints the
usage message and exits with code 1, doing no other work. -/
theorem entryPoint_usage_on_bad_argc (argv : List String)
    (h : argv.length ≠ 4) :
    entryPoint argv =
      EntryAction.usage 1
        "Usage: python3 mara_overlay.py track.gpx video.mp4 output.webm" := by
  unfold entryPoint
  rw [if_pos h]

theorem entryPoint_usage_on_bad_argc_witness :
    (["mara_overlay.py"] : List String).length ≠ 4 ∧
      entryPoint ["mara_overlay.py"] =
        EntryAction.usage 1
          "Usage: python3 mara_overlay.py track.gpx video.mp4 output.webm" :=
  ⟨by decide, entryPoint_usage_on_bad_argc _ (by decide)⟩

/-! ## TimeBase: video start-time resolution (mara_overlay.py lines 52–62) -/

/-- Clock components of an ISO-8601-like timestamp: proleptic Gregorian
calendar date plus time of day. -/
structure NaiveDT where
  year : ℤ
  month : ℤ
  day : ℤ
  hour : ℤ
  minute : ℤ
  second : ℤ
deriving DecidableEq

/-- Days from 1970-01-01 to the given proleptic Gregorian civil date
(the standard era-based conversion, with truncating integer division on
the era computation compensated by the `- 399` shift). -/
def daysFromCivil (y m d : ℤ) : ℤ :=
  let yA := if m ≤ 2 then y - 1 else y
  let era := (if 0 ≤ yA then yA else yA - 399) / 400
  let yoe := yA - era * 400
  let mp := (m + 9) % 12
  let doy := (153 * mp + 2) / 5 + d - 1
  let doe := yoe * 365 + yoe / 4 - yoe / 100 + doy
  era * 146097 + doe - 719468

/-- A clock reading placed on the integer-seconds epoch timeline (UTC
when the clock is a UTC clock). -/
def epochSeconds (dt : NaiveDT) : ℤ :=
  daysFromCivil dt.year dt.month dt.day * 86400 +
    dt.hour * 3600 + dt.minute * 60 + dt.second

/-- Modelled from the spec: the configured civil timezone is the named
IANA zone America/Chicago, supplied by `ZoneInfo("America/Chicago")`
from the external tz database (not part of this repository). Around
2025 its UTC offset is −5 h (CDT) from March 9 through November 1 and
−6 h (CST) otherwise, modelled here at whole-day granularity away from
the 02:00 transition instants. -/
def chicagoOffsetSeconds (dt : NaiveDT) : ℤ :=
  if (4 ≤ dt.month ∧ dt.month ≤ 10) ∨ (dt.month = 3 ∧ 9 ≤ dt.day) ∨
      (dt.month = 11 ∧ dt.day ≤ 1) then
    -5 * 3600
  else
    -6 * 3600

/-- Trailing timezone designator of an ISO-8601-like timestamp string:
absent, a literal Z, or a numeric UTC offset. -/
inductive TzSuffix where
  | noTz
  | zulu
  | utcOffset (seconds : ℤ)
deriving DecidableEq

/-- An ISO-8601-like timestamp string abstracted as its clock
components plus its trailing timezone designator. -/
structure TimeText where
  dt : NaiveDT
  suffix : TzSuffix
deriving DecidableEq

/-- `creation.replace('Z', '')` on the abstracted string: a literal Z
designator is deleted, a numeric offset is left untouched. -/
def replaceZEmpty (s : TimeText) : TimeText :=
  if s.suffix = TzSuffix.zulu then { s with suffix := TzSuffix.noTz } else s

/-- `t.text.replace('Z', '+00:00')` on the abstracted string. -/
def replaceZUtc (s : TimeText) : TimeText :=
  if s.suffix = TzSuffix.zulu then { s with suffix := TzSuffix.utcOffset 0 } else s

/-- A Python `datetime` as returned by `datetime.fromisoformat`: clock
components plus an optional fixed UTC offset (`none` for a naive
datetime). -/
structure ParsedDT where
  dt : NaiveDT
  tzOffset : Option ℤ
deriving DecidableEq

/-- `datetime.fromisoformat` on the abstracted string. -/
def fromisoformat (s : TimeText) : ParsedDT :=
  { dt := s.dt,
    tzOffset :=
      match s.suffix with
      | TzSuffix.noTz => none
      | TzSuffix.zulu => some 0
      | TzSuffix.utcOffset o => some o }

/-- `get_video_start_utc` with the ffprobe metadata probe abstracted to
the creation tag it yields: strip a literal Z, parse the clock
components, overwrite the tzinfo with America/Chicago while keeping the
clock components (`datetime.replace(tzinfo=...)` discards any parsed
offset), convert to UTC, and add `MANUAL_OFFSET_SECONDS`. Returns the
origin UTC instant in epoch seconds. -/
def get_video_start_utc (creation : TimeText) : ℤ :=
  let naive_dt := fromisoformat (replaceZEmpty creation)
  let localClock := naive_dt.dt
  epochSeconds localClock - chicagoOffsetSeconds localClock + MANUAL_OFFSET_SECONDS

/-- UTC conversion of an aware local clock reading carrying a fixed UTC
offset in seconds. -/
def utcOfLocal (dt : NaiveDT) (offsetSeconds : ℤ) : ℤ :=
  epochSeconds dt - offsetSeconds

/-- C5: resolving the start time of a video whose creation tag is
`2025-06-01T12:00:00` (no designator), in zone America/Chicago with the
manual offset of 3600 s and no intra-clip offset, yields the UTC
conversion of `2025-06-01T13:00:00-05:00`, i.e. `2025-06-01T18:00:00Z`. -/
theorem get_video_start_utc_scenario :
    get_video_start_utc ⟨⟨2025, 6, 1, 12, 0, 0⟩, TzSuffix.noTz⟩ =
      utcOfLocal ⟨2025, 6, 1, 13, 0, 0⟩ (-5 * 3600) ∧
    get_video_start_utc ⟨⟨2025, 6, 1, 12, 0, 0⟩, TzSuffix.noTz⟩ =
      epochSeconds ⟨2025, 6, 1, 18, 0, 0⟩ := by
  constructor <;> decide

/-- C10: a creation tag that is explicitly UTC (trailing Z) has its
designator stripped and its clock components reinterpreted as
America/Chicago local time, so the resolved origin is the tag shifted
by the Chicago UTC offset plus the manual offset — never the tag
itself; the current-wall-clock fallback, whose `+00:00` offset is
overwritten by `datetime.replace`, resolves identically. -/
theorem get_video_start_utc_reinterprets_utc_tags (dt : NaiveDT) :
    get_video_start_utc ⟨dt, TzSuffix.zulu⟩ =
      epochSeconds dt - chicagoOffsetSeconds dt + MANUAL_OFFSET_SECONDS ∧
    get_video_start_utc ⟨dt, TzSuffix.zulu⟩ ≠
      epochSeconds dt + MANUAL_OFFSET_SECONDS ∧
    get_video_start_utc ⟨dt, TzSuffix.utcOffset 0⟩ =
      get_video_start_utc ⟨dt, TzSuffix.zulu⟩ := by
  have h1 : get_video_start_utc ⟨dt, TzSuffix.zulu⟩ =
      epochSeconds dt - chicagoOffsetSeconds dt + MANUAL_OFFSET_SECONDS := rfl
  have h2 : chicagoOffsetSeconds dt ≠ 0 := by
    unfold chicagoOffsetSeconds
    split <;> norm_num
  refine ⟨h1, ?_, rfl⟩
  rw [h1]
  intro heq
  omega

/-! ## GPX ingestion (mara_overlay.py lines 64–77) -/

/-- A `<trkpt>` element abstracted to what `parse_gpx` inspects: the
optional `lat` and `lon` attributes (values already read as rationals)
and the optional `<time>` child, whose text is in turn optional —
`none` for a missing or empty text node, `some s` for non-empty text. -/
structure TrkPt where
  latAttr : Option ℚ
  lonAttr : Option ℚ
  timeChild : Option (Option TimeText)
deriving DecidableEq

/-- One output entry of `parse_gpx`: the `(dt, lat, lon)` tuple. -/
abbrev GpxPoint := ParsedDT × ℚ × ℚ

/-- Whether `parse_gpx` keeps a track point: `t is not None and t.text`. -/
def hasTimeText (pt : TrkPt) : Bool :=
  match pt.timeChild with
  | some (some _) => true
  | _ => false

/-- The `(dt, lat, lon)` tuple a kept point contributes: timestamp text
with a literal Z rewritten to `+00:00` and then parsed. (On dropped
points this returns a junk tuple that never reaches the output.) -/
def extractPoint (pt : TrkPt) : GpxPoint :=
  match pt.timeChild with
  | some (some s) => (fromisoformat (replaceZUtc s), pt.latAttr.getD 0, pt.lonAttr.getD 0)
  | _ => (⟨⟨0, 0, 0, 0, 0, 0⟩, none⟩, 0, 0)

/-- `parse_gpx` over the list of `<trkpt>` elements of the document:
reading a missing `lat`/`lon` attribute raises `KeyError` (modelled as
`Except.error`); points with a non-empty `<time>` text are appended in
document order, the rest are dropped. -/
def parse_gpx : List TrkPt → Except String (List GpxPoint)
  | [] => Except.ok []
  | pt :: rest =>
    match pt.latAttr with
    | none => Except.error "KeyError: lat"
    | some lat =>
      match pt.lonAttr with
      | none => Except.error "KeyError: lon"
      | some lon =>
        match parse_gpx rest with
        | Except.error e => Except.error e
        | Except.ok tail =>
          match pt.timeChild with
          | some (some s) =>
            Except.ok ((fromisoformat (replaceZUtc s), lat, lon) :: tail)
          | _ => Except.ok tail

/-- C7: when `parse_gpx` succeeds, the resulting track consists exactly
of the extraction of those points carrying a non-empty `<time>` child
(in order), every document point carries both a `lat` and a `lon`
attribute, and a kept point whose timestamp ends in a literal Z is
parsed with UTC offset zero. -/
theorem parse_gpx_keeps_timed_points (doc : List TrkPt) (res : List GpxPoint)
    (h : parse_gpx doc = Except.ok res) :
    res = (doc.filter hasTimeText).map extractPoint ∧
    (∀ pt ∈ doc, pt.latAttr.isSome ∧ pt.lonAttr.isSome) ∧
    (∀ pt ∈ doc, ∀ s, pt.timeChild = some (some s) →
        s.suffix = TzSuffix.zulu → (extractPoint pt).1.tzOffset = some 0) := by
  induction doc generalizing res with
  | nil =>
    simp only [parse_gpx, Except.ok.injEq] at h
    subst h
    refine ⟨by simp, ?_, ?_⟩ <;> intro pt hpt <;> cases hpt
  | cons pt rest ih =>
    cases hlat : pt.latAttr with
    | none =>
      rw [parse_gpx, hlat] at h
      exact Except.noConfusion h
    | some lat =>
      cases hlon : pt.lonAttr with
      | none =>
        rw [parse_gpx, hlat, hlon] at h
        exact Except.noConfusion h
      | some lon =>
        rw [parse_gpx, hlat, hlon] at h
        cases hrec : parse_gpx rest with
        | error e =>
          rw [hrec] at h
          exact Except.noConfusion h
        | ok tail =>
          rw [hrec] at h
          rcases ih tail hrec with ⟨ihchar, ihlatlon, ihz⟩
          have hz : ∀ x ∈ pt :: rest, ∀ s, x.timeChild = some (some s) →
              s.suffix = TzSuffix.zulu → (extractPoint x).1.tzOffset = some 0 := by
            intro x _ s hts hzu
            simp [extractPoint, hts, replaceZUtc, hzu, fromisoformat]
          have hll : ∀ x ∈ pt :: rest, x.latAttr.isSome ∧ x.lonAttr.isSome := by
            intro x hx
            rcases List.mem_cons.mp hx with rfl | hxr
            · exact ⟨by simp [hlat], by simp [hlon]⟩
            · exact ihlatlon x hxr
          cases htc : pt.timeChild with
          | none =>
            rw [htc] at h
            injection h with h
            subst h
            have hft : hasTimeText pt = false := by simp [hasTimeText, htc]
            exact ⟨by rw [ihchar]; simp [List.filter_cons, hft], hll, hz⟩
          | some t0 =>
            cases t0 with
            | none =>
              rw [htc] at h
              injection h with h
              subst h
              have hft : hasTimeText pt = false := by simp [hasTimeText, htc]
              exact ⟨by rw [ihchar]; simp [List.filter_cons, hft], hll, hz⟩
            | some s0 =>
              rw [htc] at h
              injection h with h
              subst h
              have hft : hasTimeText pt = true := by simp [hasTimeText, htc]
              have hext : extractPoint pt =
                  (fromisoformat (replaceZUtc s0), lat, lon) := by
                simp [extractPoint, htc, hlat, hlon]
              refine ⟨?_, hll, hz⟩
              rw [ihchar]
              simp [List.filter_cons, hft, hext]

theorem parse_gpx_keeps_timed_points_witness :
    parse_gpx
        [⟨some 1, some 2, some (some ⟨⟨2025, 1, 1, 0, 0, 0⟩, TzSuffix.zulu⟩)⟩,
          ⟨some 3, some 4, none⟩] =
      Except.ok [(⟨⟨2025, 1, 1, 0, 0, 0⟩, some 0⟩, 1, 2)] ∧
    [((⟨⟨2025, 1, 1, 0, 0, 0⟩, some 0⟩ : ParsedDT), (1 : ℚ), (2 : ℚ))] =
      (([⟨some 1, some 2, some (some ⟨⟨2025, 1, 1, 0, 0, 0⟩, TzSuffix.zulu⟩)⟩,
          ⟨some 3, some 4, none⟩] : List TrkPt).filter hasTimeText).map
        extractPoint :=
  ⟨rfl,
    (parse_gpx_keeps_timed_points
      [⟨some 1, some 2, some (some ⟨⟨2025, 1, 1, 0, 0, 0⟩, TzSuffix.zulu⟩)⟩,
        ⟨some 3, some 4, none⟩]
      [(⟨⟨2025, 1, 1, 0, 0, 0⟩, some 0⟩, 1, 2)] rfl).1⟩

end MaraOverlay
